import Mathlib

/-!
Verification development for the podcast-dl download orchestrator.

The Lean definitions below are a shallow embedding of the JavaScript sources:

* `src/bin/util.js` — archive ledger (`getArchive`, `writeToArchive`,
  `getIsInArchive`), entry selection (`getLoopControls`,
  `getItemsToDownload` and its helpers `getEpisodeAudioUrlAndExt`,
  `getImageUrl`, `getUrlExt`), and the field-projection engine
  (`globToRegExp`, `processFieldRules`, `applyFieldRules`, `getFields`);
* the unnamed CLI entry module — the `--offset` bounds check in `main`.

Modelling conventions: JavaScript machine integers that are in-range array
indices and day arithmetic are `Int`/`Nat`; timestamps are minutes since the
epoch (UTC), so dayjs day-granularity comparison is comparison of `t / 1440`
rounded toward negative infinity; `undefined`/absent values are `Option`;
thrown exceptions are `Except`; the `URL` constructor of the host platform is
represented by a record holding the parsed `pathname`; a compiled `RegExp`
supplied by the user on the command line (`--episode-regex`) is represented
by its test function `String → Bool`.
-/

/-! ## Calendar-day arithmetic (dayjs boundary)

`dayjs(x).isSame(y, "day")` / `isBefore` / `isAfter` compare calendar days.
With timestamps in minutes since the epoch, the calendar day of `t` is
`t / 1440` rounded toward negative infinity (`Int.fdiv`). -/

/-- Calendar day of a timestamp given in minutes since the epoch. -/
def dayOf (t : Int) : Int := Int.fdiv t 1440

/-! ## URL and file-name helpers from `src/bin/util.js` -/

/-- Boundary model of the platform `URL` value: only its parsed `pathname`
is consulted by the source (`getUrlExt`). -/
structure Url where
  pathname : String
deriving DecidableEq, Repr, Inhabited

/-- Index of the last `.` in a character list, if any (used to model node's
`path.extname`). -/
def lastDotIdx : List Char → Option Nat
  | [] => none
  | c :: rest =>
    match lastDotIdx rest with
    | some i => some (i + 1)
    | none => if c = '.' then some 0 else none

/-- node `path.extname`: the suffix of the basename from its last dot,
except that a dot at position 0 of the basename (a hidden file) yields `""`. -/
def pathExtname (p : String) : String :=
  let base := (p.splitOn "/").getLastD ""
  match lastDotIdx base.data with
  | some i => if i = 0 then "" else ⟨base.data.drop i⟩
  | none => ""

/-- `getUrlExt` (src/bin/util.js:416-425): extension of a URL's pathname,
`""` when the pathname is empty. -/
def getUrlExt (u : Url) : String :=
  if u.pathname = "" then "" else pathExtname u.pathname

/-- `AUDIO_TYPES_TO_EXTS` (src/bin/util.js:427-437). -/
def AUDIO_TYPES_TO_EXTS : List (String × String) :=
  [("audio/mpeg", ".mp3"), ("audio/mp3", ".mp3"), ("audio/flac", ".flac"),
   ("audio/ogg", ".ogg"), ("audio/vorbis", ".ogg"), ("audio/mp4", ".m4a"),
   ("audio/wav", ".wav"), ("audio/x-wav", ".wav"), ("audio/aac", ".aac")]

/-- `VALID_AUDIO_EXTS` (src/bin/util.js:439): the distinct extension values,
first occurrences kept in order, as `[...new Set(Object.values(...))]`. -/
def VALID_AUDIO_EXTS : List String :=
  (AUDIO_TYPES_TO_EXTS.map Prod.snd).eraseDups

/-- `getIsAudioUrl` (src/bin/util.js:441-449). -/
def getIsAudioUrl (u : Url) : Bool :=
  let ext := getUrlExt u
  if ext = "" then false else VALID_AUDIO_EXTS.contains ext

/-! ## Feed items (data model from the feed-parsing boundary) -/

/-- An enclosure: media url plus declared MIME type.  The source field `type`
is a Lean keyword, so it is called `mimeType` here. -/
structure Enclosure where
  url : Url
  mimeType : Option String
deriving DecidableEq, Repr

/-- Entry-level image metadata (`item.image`). -/
structure ItemImage where
  url : Option Url
  link : Option Url
deriving DecidableEq, Repr

/-- itunes-namespace fields consulted during selection (`item.itunes`). -/
structure ItunesInfo where
  image : Option Url
deriving DecidableEq, Repr

/-- One feed entry, with the fields the selection phase reads.  `title` is
`some ""` for a present-but-empty title (falsy in JavaScript, like a missing
one); `pubDate` is `none` for a missing or unparseable publish date (an
Invalid Date in dayjs, whose day comparisons are all false). -/
structure Item where
  title : Option String
  pubDate : Option Int
  guid : String
  link : Option Url
  enclosure : Option Enclosure
  image : Option ItemImage
  itunes : Option ItunesInfo
deriving DecidableEq, Repr

instance : Inhabited Item := ⟨⟨none, none, "", none, none, none, none⟩⟩

/-- A feed document: the selection phase reads only the ordered `items`. -/
structure Feed where
  title : Option String
  items : List Item
deriving Repr

/-- `getEpisodeAudioUrlAndExt`'s enclosure fallback (src/bin/util.js:456-464):
the enclosure url when its extension is a known audio extension, else the
enclosure url with the extension looked up from the declared MIME type. -/
def getEnclosureAudio : Option Enclosure → Option Url × Option String
  | some enc =>
    if getIsAudioUrl enc.url then (some enc.url, some (getUrlExt enc.url))
    else
      match enc.mimeType.bind (fun t => AUDIO_TYPES_TO_EXTS.lookup t) with
      | some ext => (some enc.url, some ext)
      | none => (none, none)
  | none => (none, none)

/-- `getEpisodeAudioUrlAndExt` (src/bin/util.js:451-465): the entry `link`
when it is an audio url, else the enclosure cases. -/
def getEpisodeAudioUrlAndExt (item : Item) : Option Url × Option String :=
  match item.link with
  | some l =>
    if getIsAudioUrl l then (some l, some (getUrlExt l)) else getEnclosureAudio item.enclosure
  | none => getEnclosureAudio item.enclosure

/-- `getImageUrl` (src/bin/util.js:467-481): entry image url, then entry
image link, then the itunes image. -/
def getImageUrl (item : Item) : Option Url :=
  match item.image with
  | some img =>
    match img.url with
    | some u => some u
    | none =>
      match img.link with
      | some u => some u
      | none => (item.itunes.bind fun it => it.image)
  | none => (item.itunes.bind fun it => it.image)

/-- `getArchiveKey` (src/bin/util.js:53-55).  The source takes a record with
fields `prefix` and `name`. -/
def getArchiveKey (pfx : String) (name : String) : String :=
  pfx ++ "-" ++ name

/-- Modelled from the spec: `getArchiveFilename` lives in `src/bin/naming.js`,
which is not among the sources.  The spec (§3, Archive Key): the artifact
filename "is derived from a deterministic filename template (publish date,
title, extension)" — a deterministic function of those three inputs. -/
def getArchiveFilename (pubDate : Option Int) (name : Option String) (ext : Option String) : String :=
  (match pubDate with | some d => toString d | none => "") ++ "-" ++ name.getD "" ++ ext.getD ""

/-- Modelled from the spec: `getFilename` lives in `src/bin/naming.js`, which
is not among the sources.  The spec (§6, Filename templating): "given an
entry/feed and a template string, deterministically produces a safe
filesystem path/name" — a pure function of the entry, feed, url, extension
and template. -/
def getFilename (item : Item) (feed : Feed) (url : Option Url) (ext : String) (template : String) : String :=
  template ++ "-" ++ feed.title.getD "" ++ "-" ++ item.title.getD "" ++ "-" ++
    (match url with | some u => u.pathname | none => "") ++ ext

/-! ## Loop controls and the selection loop -/

/-- Forward scan of `getLoopControls` (src/bin/util.js:145-154): the indices
the `while (shouldGo(i))` loop visits starting at `i`, with
`shouldGo = (i) => i < max` and `next = (i) => i + 1`. -/
def forwardIndices (i max : Int) : List Int :=
  if i < max then i :: forwardIndices (i + 1) max else []
termination_by (max - i).toNat
decreasing_by
  omega

/-- Reverse scan of `getLoopControls` (src/bin/util.js:132-142): the indices
visited starting at `i`, with `shouldGo = (i) => i > -1` and
`next = (i) => i - 1`. -/
def reverseIndices (i : Int) : List Int :=
  if i > -1 then i :: reverseIndices (i - 1) else []
termination_by (i + 1).toNat
decreasing_by
  omega

/-- The index sequence of `getLoopControls` (src/bin/util.js:131-155) followed
by the `while` loop of `getItemsToDownload`: reverse starts at
`length - 1 - offset` and counts down to `0`; forward starts at `0 + offset`
and counts up below `length`. -/
def visitedIndices (offset : Nat) (length : Nat) (reverse : Bool) : List Int :=
  if reverse then reverseIndices ((length : Int) - 1 - offset)
  else forwardIndices ((0 : Int) + offset) length

/-- Selection criteria: the named arguments of `getItemsToDownload`
(src/bin/util.js:157-170).  `archive` holds the parsed ledger contents when
`--archive` is set (the `getArchive` file read, at the filesystem boundary);
`episodeRegex` holds the compiled regex's test function. -/
structure Criteria where
  archive : Option (List String)
  archiveUrl : String
  basePath : String
  limit : Option Nat
  offset : Nat
  reverse : Bool
  before : Option Int
  after : Option Int
  episodeRegex : Option (String → Bool)
  episodeTemplate : String
  includeEpisodeImages : Bool

/-- The regex filter step (src/bin/util.js:187-192): when a regex is set and
the title is truthy (present and nonempty) and the regex does not match it,
the entry is invalidated; a falsy title leaves the entry valid here. -/
def passesRegex (episodeRegex : Option (String → Bool)) (title : Option String) : Bool :=
  match episodeRegex with
  | none => true
  | some test =>
    match title with
    | none => true
    | some t => if t ≠ "" ∧ ¬ test t then false else true

/-- The `before` filter step (src/bin/util.js:194-202): the entry stays valid
iff its publish day is the same day as, or a day before, the bound's day; a
missing/invalid publish date fails both dayjs comparisons and is
invalidated. -/
def passesBefore (before : Option Int) (pubDate : Option Int) : Bool :=
  match before with
  | none => true
  | some b =>
    match pubDate with
    | none => false
    | some d => decide (dayOf d = dayOf b) || decide (dayOf d < dayOf b)

/-- The `after` filter step (src/bin/util.js:204-212), mirror image of
`passesBefore`. -/
def passesAfter (after : Option Int) (pubDate : Option Int) : Bool :=
  match after with
  | none => true
  | some a =>
    match pubDate with
    | none => false
    | some d => decide (dayOf d = dayOf a) || decide (dayOf d > dayOf a)

/-- The archive key computed for an entry inside the selection loop
(src/bin/util.js:214-223). -/
def itemArchiveKey (crit : Criteria) (item : Item) : String :=
  let ext := (getEpisodeAudioUrlAndExt item).2
  getArchiveKey crit.archiveUrl (getArchiveFilename item.pubDate item.title ext)

/-- The full conjunction of the selection predicates for one entry
(src/bin/util.js:182-227).  The computed key is a nonempty string (it
contains a `-`), hence always truthy, so `if (key && savedArchive.includes(key))`
reduces to the membership test. -/
def itemIsValid (crit : Criteria) (savedArchive : List String) (item : Item) : Bool :=
  passesRegex crit.episodeRegex item.title &&
  passesBefore crit.before item.pubDate &&
  passesAfter crit.after item.pubDate &&
  !(savedArchive.contains (itemArchiveKey crit item))

/-- A secondary-download descriptor pushed onto `item._extra_downloads`
(src/bin/util.js:261-265). -/
structure ExtraDownload where
  url : Url
  outputPath : String
  key : String
deriving DecidableEq, Repr

/-- An entry annotated by the selection loop: `_originalIndex` and
`_extra_downloads` (src/bin/util.js:229-270). -/
structure SelectedItem where
  item : Item
  originalIndex : Int
  extraDownloads : List ExtraDownload
deriving DecidableEq, Repr

/-- The annotation applied to a valid entry (src/bin/util.js:229-269):
`_originalIndex := i`, `_extra_downloads := []`, then if episode images were
requested and the entry has an image url, one image descriptor is pushed. -/
def annotateItem (crit : Criteria) (feed : Feed) (item : Item) (i : Int) : SelectedItem :=
  let base : SelectedItem := { item := item, originalIndex := i, extraDownloads := [] }
  if crit.includeEpisodeImages then
    match getImageUrl item with
    | some imgUrl =>
      let imgExt := getUrlExt imgUrl
      let imgKey := getArchiveKey crit.archiveUrl
        (getArchiveFilename item.pubDate item.title (some imgExt))
      let imgName := getFilename item feed (getEpisodeAudioUrlAndExt item).1 imgExt
        crit.episodeTemplate
      let outPath := crit.basePath ++ "/" ++ item.guid ++ "/" ++ imgName
      { base with extraDownloads := [⟨imgUrl, outPath, imgKey⟩] }
    | none => base
  else base

/-- One iteration of the selection `while` loop at index `i`
(src/bin/util.js:182-272): read the entry, evaluate the predicates, and
produce the annotated entry when it is valid.  The loop controls keep `i` in
bounds (`visitedIndices_mem_bounds` below), so the read is modelled with a
default for totality. -/
def selectStep (crit : Criteria) (feed : Feed) (savedArchive : List String) (i : Int) :
    Option SelectedItem :=
  let item := feed.items.getD i.toNat default
  if itemIsValid crit savedArchive item then some (annotateItem crit feed item i) else none

/-- The selection `while` loop over the visited index sequence
(src/bin/util.js:182-273): valid entries are pushed in visitation order. -/
def selectLoop (crit : Criteria) (feed : Feed) (savedArchive : List String) :
    List Int → List SelectedItem
  | [] => []
  | i :: rest =>
    match selectStep crit feed savedArchive i with
    | some s => s :: selectLoop crit feed savedArchive rest
    | none => selectLoop crit feed savedArchive rest

/-- `getItemsToDownload` (src/bin/util.js:157-276): loop controls, the
selection loop, then `limit ? items.slice(0, limit) : items` (a limit of `0`
is falsy in JavaScript and leaves the list untouched; the CLI enforces
`limit ≥ 1`). -/
def getItemsToDownload (crit : Criteria) (feed : Feed) : List SelectedItem :=
  let savedArchive := crit.archive.getD []
  let visited := visitedIndices crit.offset feed.items.length crit.reverse
  let sel := selectLoop crit feed savedArchive visited
  match crit.limit with
  | some n => if n = 0 then sel else sel.take n
  | none => sel

/-! ## Archive ledger (src/bin/util.js:57-81)

The file at the archive path is `Option ArchiveFile`: `none` when
`fs.existsSync` is false.  `JSON.parse`/`JSON.stringify` of the platform are
the boundary: an existing file either reads back as a JSON array of strings
(`jsonList`) or makes `JSON.parse` throw (`malformed`). -/

/-- Content of an existing archive ledger file. -/
inductive ArchiveFile where
  /-- text that `JSON.parse` reads back as a JSON array of strings -/
  | jsonList (entries : List String)
  /-- text on which `JSON.parse` throws a parse error -/
  | malformed
deriving DecidableEq, Repr

/-- The exception `JSON.parse` throws on malformed ledger text. -/
inductive ArchiveError where
  | parseError
deriving DecidableEq, Repr

/-- `getArchive` (src/bin/util.js:57-65): a missing file is the empty ledger;
an existing file is parsed, and a parse failure propagates as an
exception. -/
def getArchive : Option ArchiveFile → Except ArchiveError (List String)
  | none => .ok []
  | some (.jsonList entries) => .ok entries
  | some .malformed => .error .parseError

/-- `writeToArchive` (src/bin/util.js:67-76): load the current ledger, push
the key only when absent, rewrite the whole file. -/
def writeToArchive (key : String) (file : Option ArchiveFile) :
    Except ArchiveError (Option ArchiveFile) := do
  let archiveResult ← getArchive file
  let updated := if archiveResult.contains key then archiveResult else archiveResult ++ [key]
  pure (some (.jsonList updated))

/-- `getIsInArchive` (src/bin/util.js:78-81). -/
def getIsInArchive (key : String) (file : Option ArchiveFile) : Except ArchiveError Bool := do
  let archiveResult ← getArchive file
  pure (archiveResult.contains key)

/-! ## The `--offset` bounds check of `main` (unnamed CLI module, lines 300-302) -/

/-- A fatal condition reported by `logErrorAndExit`. -/
inductive FatalError where
  | offsetTooLarge
deriving DecidableEq, Repr

/-- `main`'s offset check: `if (offset >= feed.items.length)
logErrorAndExit("--offset too large. No episodes to download.")`.
`logErrorAndExit` lives in `src/bin/logger.js`, which is not among the
sources; modelled from the spec (§7): fatal errors "terminate the process
with a non-zero status". -/
def checkOffset (offset : Nat) (numItems : Nat) : Except FatalError Unit :=
  if offset ≥ numItems then .error .offsetTooLarge else .ok ()

/-- Modelled from the spec: the process exit status of a fatal error is
non-zero (spec §7, "Fatal errors propagate immediately and terminate the
process with a non-zero status"). -/
def fatalExitCode : FatalError → Nat
  | .offsetTooLarge => 1

/-! ## Field projection (src/bin/util.js:496-568)

`globToRegExp` escapes the regex metacharacters of the glob (`*` is not
escaped), replaces the *first* occurrence of `**` with `.+`, then the first
remaining `*` with `[^.]+` (`String.prototype.replace` with a string pattern
replaces only the first occurrence), and anchors the result with `^`/`$`.
The compiled regexes are modelled by a small abstract syntax (`RAtom`) plus a
full-match function (`rmatch`); `parseRegex` reads the atoms off the
generated pattern text and fails exactly where the `RegExp` constructor
throws ("nothing to repeat": a quantifier with no atom before it, or a
quantifier directly after `+`).  `dotPlus` matches any characters — a
deliberate simplification of the JavaScript dot, which excludes line
terminators; the dotted key paths at play contain none. -/

/-- One element of a compiled glob regex. -/
inductive RAtom where
  /-- a literal character (plain or backslash-escaped in the pattern text) -/
  | lit (c : Char)
  /-- `.+` — one or more characters (inserted for `**`) -/
  | dotPlus
  /-- `[^.]+` — one or more non-dot characters (inserted for `*`) -/
  | nonDotPlus
  /-- `c*` — zero or more of a literal (a `*` of the glob left in place by
  the first-occurrence-only replacement, read by the regex engine as a
  quantifier) -/
  | starLit (c : Char)
deriving DecidableEq, Repr

/-- Anchored (full-string) match of a compiled pattern against a character
list, with the usual nondeterministic semantics of `+` and `*`. -/
def rmatch : List RAtom → List Char → Bool
  | [], [] => true
  | [], _ :: _ => false
  | .lit c :: rs, x :: xs => x = c && rmatch rs xs
  | .lit _ :: _, [] => false
  | .dotPlus :: rs, _ :: xs => rmatch rs xs || rmatch (.dotPlus :: rs) xs
  | .dotPlus :: _, [] => false
  | .nonDotPlus :: rs, x :: xs => !(x = '.') && (rmatch rs xs || rmatch (.nonDotPlus :: rs) xs)
  | .nonDotPlus :: _, [] => false
  | .starLit _ :: rs, [] => rmatch rs []
  | .starLit c :: rs, x :: xs => rmatch rs (x :: xs) || (x = c && rmatch (.starLit c :: rs) xs)
termination_by rs s => (s.length, rs.length)
decreasing_by all_goals (simp_wf; omega)

/-- The characters `glob.replace(/[.+?^${}()|[\]\\]/g, "\\$&")` escapes
(src/bin/util.js:498); `*` is not among them. -/
def escapedChars : List Char :=
  ['.', '+', '?', '^', '$', '\x7b', '\x7d', '(', ')', '|', '[', ']', '\\']

/-- The escaping pass of `globToRegExp`: each metacharacter is prefixed with
a backslash. -/
def escapeRegExpChars : List Char → List Char
  | [] => []
  | c :: rest =>
    if escapedChars.contains c then '\\' :: c :: escapeRegExpChars rest
    else c :: escapeRegExpChars rest

/-- `String.prototype.replace` with a string pattern: replace the first
occurrence of `pat` with `rep` (the replacement text at play contains no `$`
substitution). -/
def replaceFirst (pat rep : List Char) : List Char → List Char
  | [] => if pat = [] then rep else []
  | c :: rest =>
    if pat.isPrefixOf (c :: rest) then rep ++ (c :: rest).drop pat.length
    else c :: replaceFirst pat rep rest

/-- Read the atoms off the generated pattern text.  `none` models the
`RegExp` constructor throwing ("nothing to repeat").  The function is total
over arbitrary text but is only ever applied to the image of the
escape-and-replace pipeline, whose unescaped characters are `*` and the
inserted `.+` / `[^.]+` tokens. -/
def parseRegex : List Char → Option (List RAtom)
  | [] => some []
  | '\\' :: c :: '*' :: rest => (parseRegex rest).map (.starLit c :: ·)
  | '\\' :: c :: rest => (parseRegex rest).map (.lit c :: ·)
  | ['\\'] => none
  | '.' :: '+' :: '*' :: _ => none
  | '.' :: '+' :: rest => (parseRegex rest).map (.dotPlus :: ·)
  | '[' :: '^' :: '.' :: ']' :: '+' :: '*' :: _ => none
  | '[' :: '^' :: '.' :: ']' :: '+' :: rest => (parseRegex rest).map (.nonDotPlus :: ·)
  | '*' :: _ => none
  | c :: '*' :: rest => (parseRegex rest).map (.starLit c :: ·)
  | c :: rest => (parseRegex rest).map (.lit c :: ·)

/-- `globToRegExp` (src/bin/util.js:496-502): escape, replace the first
`**` with `.+`, replace the first remaining `*` with `[^.]+`, compile. -/
def globToRegExp (glob : List Char) : Option (List RAtom) :=
  parseRegex (replaceFirst ['*'] ['[', '^', '.', ']', '+']
    (replaceFirst ['*', '*'] ['.', '+'] (escapeRegExpChars glob)))

/-- The prefix handling of one rule string (src/bin/util.js:505-512): a
leading `!` marks an exclude rule and is stripped; otherwise a leading `\!`
has its backslash stripped, leaving a literal leading `!` in the glob; any
other string is an include rule taken whole. -/
def compileRuleStr : List Char → Bool × List Char
  | '!' :: rest => (false, rest)
  | '\\' :: '!' :: rest => (true, '!' :: rest)
  | cs => (true, cs)

/-- A compiled field rule (src/bin/util.js:514-517); the source field
`include` is a Lean keyword, so it is called `includeFlag` here. -/
structure CompiledRule where
  includeFlag : Bool
  pattern : List RAtom
deriving DecidableEq, Repr

/-- `processFieldRules` (src/bin/util.js:504-518): compile every rule string;
`none` when a generated regex fails to compile (the exception propagates). -/
def processFieldRules (patterns : List String) : Option (List CompiledRule) :=
  patterns.mapM fun p =>
    let (inc, glob) := compileRuleStr p.data
    (globToRegExp glob).map fun r => ⟨inc, r⟩

/-- A JSON-style object graph, the shape of the feed/item metadata objects
`applyFieldRules` walks: scalars (carried opaquely as text), arrays, and
objects as ordered key-value lists. -/
inductive JVal where
  | prim (s : String)
  | arr (elems : List JVal)
  | obj (fields : List (String × JVal))

/-! `getToInclude` (src/bin/util.js:523-543), `applyFieldRules`
(src/bin/util.js:520-561) and the array `map`/`filter` inside
`getToInclude`, as one mutual recursion. -/
mutual

/-- `getToInclude` (src/bin/util.js:523-543): an array keeps the surviving
projections of its elements and is dropped when none survives; a nested
object is projected under `fullKey ++ "."` and is dropped when the
projection is empty; a scalar is kept iff the first matching rule (of the
already-reversed list) is an include rule. -/
def getToInclude (rules : List CompiledRule) (fullKey : List Char) : JVal → Option JVal
  | .prim s =>
    match rules.find? (fun r => rmatch r.pattern fullKey) with
    | some r => if r.includeFlag then some (.prim s) else none
    | none => none
  | .arr elems =>
    let nested := includeElems rules fullKey elems
    if nested.length ≠ 0 then some (.arr nested) else none
  | .obj fields =>
    let nested := applyFieldRules rules (fullKey ++ ['.']) fields
    if nested.length ≠ 0 then some (.obj nested) else none

def includeElems (rules : List CompiledRule) (fullKey : List Char) : List JVal → List JVal
  | [] => []
  | v :: rest =>
    match getToInclude rules fullKey v with
    | some w => w :: includeElems rules fullKey rest
    | none => includeElems rules fullKey rest

/-- `applyFieldRules` (src/bin/util.js:520-561): walk the fields in order;
the reserved keys `$` and `_` are passed through unfiltered; every other
field keeps its projection when one survives. -/
def applyFieldRules (rules : List CompiledRule) (pfx : List Char) :
    List (String × JVal) → List (String × JVal)
  | [] => []
  | (k, v) :: rest =>
    if k = "$" ∨ k = "_" then (k, v) :: applyFieldRules rules pfx rest
    else
      match getToInclude rules (pfx ++ k.data) v with
      | some w => (k, w) :: applyFieldRules rules pfx rest
      | none => applyFieldRules rules pfx rest

end

/-- `getFields` (src/bin/util.js:563-568): compile the rules, reverse the
compiled list (the source keeps only the last declared match), and project
the object's fields under the empty key prefix. -/
def getFields (fields : List (String × JVal)) (patterns : List String) :
    Option (List (String × JVal)) :=
  (processFieldRules patterns).map fun rules => applyFieldRules rules.reverse [] fields

/-! ## Concrete inputs used by the scenario conjuncts and the witnesses -/

/-- A plain feed entry used in concrete scenarios: distinct title and guid,
publish timestamp at day `k`'s midnight, no media metadata. -/
def scenarioItem (k : Nat) : Item :=
  { title := some ("episode " ++ toString k), pubDate := some ((k : Int) * 1440),
    guid := toString k, link := none, enclosure := none, image := none, itunes := none }

/-- The ten-entry feed of the spec's limit/offset scenario. -/
def scenarioFeed : Feed :=
  { title := some "feed", items := (List.range 10).map scenarioItem }

/-- The criteria of the spec's limit/offset scenario: `limit = 3`,
`offset = 2`, forward order, no other filters, no archive. -/
def scenarioCrit : Criteria :=
  { archive := none, archiveUrl := "example.com/feed", basePath := "/out", limit := some 3,
    offset := 2, reverse := false, before := none, after := none, episodeRegex := none,
    episodeTemplate := "tpl", includeEpisodeImages := false }

/-- A minimal entry with the given title, used by concrete witnesses. -/
def witnessItem (t : String) : Item :=
  { title := some t, pubDate := some 0, guid := t, link := none, enclosure := none,
    image := none, itunes := none }

/-- A two-entry feed whose entries have distinct archive keys. -/
def witnessFeed : Feed := { title := some "f", items := [witnessItem "a", witnessItem "b"] }

/-- An entry with no title at all. -/
def itemNoTitle : Item :=
  { title := none, pubDate := some 0, guid := "x", link := none, enclosure := none,
    image := none, itunes := none }

/-! ## Lemmas: the index sequences generated by `getLoopControls` -/

theorem forwardIndices_add (n : Nat) : ∀ i : Int,
    forwardIndices i (i + n) = List.map (fun (k : Nat) => i + (k : Int)) (List.range n) := by
  induction n with
  | zero => intro i; rw [forwardIndices]; simp
  | succ n ih =>
    intro i
    rw [forwardIndices, if_pos (by omega)]
    rw [show i + ((n + 1 : Nat) : Int) = (i + 1) + (n : Nat) by omega, ih (i + 1),
      List.range_succ_eq_map]
    simp only [List.map_cons, List.map_map, Nat.cast_zero, add_zero, List.cons.injEq, true_and]
    apply List.map_congr_left
    intro k _
    simp only [Function.comp_apply]
    push_cast
    ring

theorem forwardIndices_spec (o L : Nat) :
    forwardIndices ((0 : Int) + o) L = List.map Int.ofNat ((List.range L).drop o) := by
  rcases le_or_lt L o with h | h
  · rw [forwardIndices, if_neg (by omega), List.drop_eq_nil_of_le (by simpa using h)]
    simp
  · have hL : L = o + (L - o) := by omega
    rw [zero_add]
    have h1 : forwardIndices (o : Int) L
        = List.map (fun (k : Nat) => (o : Int) + (k : Int)) (List.range (L - o)) := by
      conv_lhs => rw [hL]
      rw [show ((o + (L - o) : Nat) : Int) = (o : Int) + ((L - o : Nat) : Int) by omega]
      exact forwardIndices_add (L - o) o
    have h2 : (List.range L).drop o = List.map (fun k => o + k) (List.range (L - o)) := by
      conv_lhs => rw [hL]
      rw [List.range_add]
      simpa using List.drop_left (List.range o) ((List.range (L - o)).map (fun x => o + x))
    rw [h1, h2, List.map_map]
    apply List.map_congr_left
    intro k _
    simp only [Function.comp, Int.ofNat_eq_coe]
    push_cast
    ring

theorem reverseIndices_nat (n : Nat) :
    reverseIndices (n : Int) = List.map Int.ofNat (List.range (n + 1)).reverse := by
  induction n with
  | zero =>
    rw [reverseIndices, if_pos (by omega), reverseIndices, if_neg (by omega)]
    rfl
  | succ n ih =>
    rw [reverseIndices, if_pos (by omega),
      show ((n + 1 : Nat) : Int) - 1 = (n : Nat) by omega, ih,
      List.range_succ (n + 1)]
    simp

theorem reverseIndices_neg (i : Int) (h : i < 0) : reverseIndices i = [] := by
  rw [reverseIndices, if_neg (by omega)]

theorem visitedIndices_false (o L : Nat) :
    visitedIndices o L false = List.map Int.ofNat ((List.range L).drop o) := by
  rw [visitedIndices, if_neg (by simp)]
  exact forwardIndices_spec o L

theorem visitedIndices_true (o L : Nat) :
    visitedIndices o L true = List.map Int.ofNat (List.range (L - o)).reverse := by
  rw [visitedIndices, if_pos rfl]
  rcases le_or_lt L o with h | h
  · rw [reverseIndices_neg _ (by omega), show L - o = 0 by omega]
    simp
  · rw [show (L : Int) - 1 - o = ((L - o - 1 : Nat) : Int) by omega,
      reverseIndices_nat, show L - o - 1 + 1 = L - o by omega]

/-! ## Lemmas: the selection loop -/

theorem selectLoop_eq_filterMap (crit : Criteria) (feed : Feed) (sa : List String) :
    ∀ l : List Int, selectLoop crit feed sa l = l.filterMap (selectStep crit feed sa) := by
  intro l
  induction l with
  | nil => rfl
  | cons i rest ih =>
    rw [selectLoop, List.filterMap_cons]
    cases h : selectStep crit feed sa i <;> simp [h, ih]

theorem selectLoop_eq (crit : Criteria) (feed : Feed) (sa : List String) :
    ∀ l : List Int, selectLoop crit feed sa l
      = List.map (fun i => annotateItem crit feed (feed.items.getD i.toNat default) i)
          (List.filter (fun i => itemIsValid crit sa (feed.items.getD i.toNat default)) l) := by
  intro l
  induction l with
  | nil => rfl
  | cons i rest ih =>
    rw [selectLoop, List.filter_cons]
    by_cases h : itemIsValid crit sa (feed.items.getD i.toNat default)
    · have hs : selectStep crit feed sa i
          = some (annotateItem crit feed (feed.items.getD i.toNat default) i) := by
        rw [selectStep, if_pos h]
      simp only [hs, ih]
      rw [if_pos h, List.map_cons]
    · have hs : selectStep crit feed sa i = none := by
        rw [selectStep, if_neg h]
      simp only [hs, ih]
      rw [if_neg h]

theorem visitedIndices_bounds (o L : Nat) (rev : Bool) :
    ∀ i ∈ visitedIndices o L rev, 0 ≤ i ∧ i < L := by
  intro i hi
  cases rev
  · rw [visitedIndices_false] at hi
    obtain ⟨k, hk, rfl⟩ := List.mem_map.1 hi
    have hkL := List.mem_range.1 (List.mem_of_mem_drop hk)
    simp only [Int.ofNat_eq_coe]
    omega
  · rw [visitedIndices_true] at hi
    obtain ⟨k, hk, rfl⟩ := List.mem_map.1 hi
    rw [List.mem_reverse] at hk
    have hkL := List.mem_range.1 hk
    simp only [Int.ofNat_eq_coe]
    omega

/-! ## The claims -/

/-- C1: for every feed items list of length `L` and every offset (a natural
number, hence `≥ 0`), the selection loop visits exactly the indices of the
direction rule — with reverse unset the indices `offset, offset+1, …, L-1`
in that order, with reverse set the indices `L-1-offset, L-2-offset, …, 0`
in that order — and (with no limit set) the entries passing all predicates
are appended to the result, annotated, in visitation order. -/
theorem getItemsToDownload_visitation_spec (crit : Criteria) (feed : Feed) :
    visitedIndices crit.offset feed.items.length false
        = List.map Int.ofNat ((List.range feed.items.length).drop crit.offset)
    ∧ visitedIndices crit.offset feed.items.length true
        = List.map Int.ofNat (List.range (feed.items.length - crit.offset)).reverse
    ∧ getItemsToDownload { crit with limit := none } feed
        = List.map (fun i => annotateItem crit feed (feed.items.getD i.toNat default) i)
            (List.filter
              (fun i => itemIsValid crit (crit.archive.getD []) (feed.items.getD i.toNat default))
              (visitedIndices crit.offset feed.items.length crit.reverse)) := by
  refine ⟨visitedIndices_false _ _, visitedIndices_true _ _, ?_⟩
  calc getItemsToDownload { crit with limit := none } feed
      = selectLoop { crit with limit := none } feed (crit.archive.getD [])
          (visitedIndices crit.offset feed.items.length crit.reverse) := rfl
    _ = _ := by rw [selectLoop_eq]; rfl

/-- C4: with a limit set (the CLI enforces `limit ≥ 1`), the selection result
is the fully filtered list truncated to its first `limit` elements —
truncation happens after all inclusion predicates; and in the concrete
scenario of a 10-entry feed with `limit = 3`, `offset = 2`, reverse unset,
no other filters and no archive exclusions, the selection returns the
entries at feed positions 2, 3, 4 in that order. -/
theorem getItemsToDownload_limit_truncation (crit : Criteria) (feed : Feed) (n : Nat)
    (h : 0 < n) :
    (getItemsToDownload { crit with limit := some n } feed
        = (getItemsToDownload { crit with limit := none } feed).take n)
    ∧ (getItemsToDownload scenarioCrit scenarioFeed).map (fun s => s.originalIndex) = [2, 3, 4]
    ∧ (getItemsToDownload scenarioCrit scenarioFeed).map (fun s => s.item)
        = [scenarioItem 2, scenarioItem 3, scenarioItem 4] := by
  have hscen : getItemsToDownload scenarioCrit scenarioFeed
      = (selectLoop scenarioCrit scenarioFeed [] (visitedIndices 2 10 false)).take 3 := rfl
  have hv : visitedIndices 2 10 false = [2, 3, 4, 5, 6, 7, 8, 9] := by
    rw [visitedIndices_false]
    rfl
  refine ⟨?_, ?_, ?_⟩
  · have e1 : getItemsToDownload { crit with limit := some n } feed
        = if n = 0 then
            selectLoop { crit with limit := some n } feed (crit.archive.getD [])
              (visitedIndices crit.offset feed.items.length crit.reverse)
          else
            (selectLoop { crit with limit := some n } feed (crit.archive.getD [])
              (visitedIndices crit.offset feed.items.length crit.reverse)).take n := rfl
    have e2 : getItemsToDownload { crit with limit := none } feed
        = selectLoop { crit with limit := none } feed (crit.archive.getD [])
            (visitedIndices crit.offset feed.items.length crit.reverse) := rfl
    rw [e1, e2, if_neg (by omega), selectLoop_eq, selectLoop_eq]
    rfl
  · rw [hscen, hv]
    decide
  · rw [hscen, hv]
    decide

/-- C4 witness: the truncation law applied at the scenario criteria with
`limit = 3`. -/
theorem getItemsToDownload_limit_truncation_witness :
    0 < 3
    ∧ ((getItemsToDownload { scenarioCrit with limit := some 3 } scenarioFeed
          = (getItemsToDownload { scenarioCrit with limit := none } scenarioFeed).take 3)
      ∧ (getItemsToDownload scenarioCrit scenarioFeed).map (fun s => s.originalIndex) = [2, 3, 4]
      ∧ (getItemsToDownload scenarioCrit scenarioFeed).map (fun s => s.item)
          = [scenarioItem 2, scenarioItem 3, scenarioItem 4]) :=
  ⟨by decide, getItemsToDownload_limit_truncation scenarioCrit scenarioFeed 3 (by decide)⟩

/-- C5: for a feed with no duplicate archive keys, selecting with offset 0,
reverse unset and no other filters, then reversing the result item for
item, yields exactly the selection with offset 0 and reverse set. -/
theorem getItemsToDownload_reverse_symmetry (feed : Feed) (au bp tpl : String) (imgs : Bool)
    (hnodup : (feed.items.map (itemArchiveKey
      { archive := none, archiveUrl := au, basePath := bp, limit := none, offset := 0,
        reverse := false, before := none, after := none, episodeRegex := none,
        episodeTemplate := tpl, includeEpisodeImages := imgs })).Nodup) :
    (getItemsToDownload
        { archive := none, archiveUrl := au, basePath := bp, limit := none, offset := 0,
          reverse := false, before := none, after := none, episodeRegex := none,
          episodeTemplate := tpl, includeEpisodeImages := imgs } feed).reverse
      = getItemsToDownload
          { archive := none, archiveUrl := au, basePath := bp, limit := none, offset := 0,
            reverse := true, before := none, after := none, episodeRegex := none,
            episodeTemplate := tpl, includeEpisodeImages := imgs } feed := by
  have e1 : getItemsToDownload
      { archive := none, archiveUrl := au, basePath := bp, limit := none, offset := 0,
        reverse := false, before := none, after := none, episodeRegex := none,
        episodeTemplate := tpl, includeEpisodeImages := imgs } feed
      = selectLoop
          { archive := none, archiveUrl := au, basePath := bp, limit := none, offset := 0,
            reverse := false, before := none, after := none, episodeRegex := none,
            episodeTemplate := tpl, includeEpisodeImages := imgs } feed []
          (visitedIndices 0 feed.items.length false) := rfl
  have e2 : getItemsToDownload
      { archive := none, archiveUrl := au, basePath := bp, limit := none, offset := 0,
        reverse := true, before := none, after := none, episodeRegex := none,
        episodeTemplate := tpl, includeEpisodeImages := imgs } feed
      = selectLoop
          { archive := none, archiveUrl := au, basePath := bp, limit := none, offset := 0,
            reverse := true, before := none, after := none, episodeRegex := none,
            episodeTemplate := tpl, includeEpisodeImages := imgs } feed []
          (visitedIndices 0 feed.items.length true) := rfl
  rw [e1, e2, selectLoop_eq_filterMap, selectLoop_eq_filterMap,
    visitedIndices_false, visitedIndices_true, List.drop_zero, Nat.sub_zero,
    List.map_reverse, List.filterMap_reverse]
  rfl

/-- C5 witness: the symmetry applied to a concrete two-entry feed whose
archive keys are distinct. -/
theorem getItemsToDownload_reverse_symmetry_witness :
    (witnessFeed.items.map (itemArchiveKey
      { archive := none, archiveUrl := "u", basePath := "/o", limit := none, offset := 0,
        reverse := false, before := none, after := none, episodeRegex := none,
        episodeTemplate := "t", includeEpisodeImages := false })).Nodup
    ∧ (getItemsToDownload
          { archive := none, archiveUrl := "u", basePath := "/o", limit := none, offset := 0,
            reverse := false, before := none, after := none, episodeRegex := none,
            episodeTemplate := "t", includeEpisodeImages := false } witnessFeed).reverse
        = getItemsToDownload
            { archive := none, archiveUrl := "u", basePath := "/o", limit := none, offset := 0,
              reverse := true, before := none, after := none, episodeRegex := none,
              episodeTemplate := "t", includeEpisodeImages := false } witnessFeed :=
  ⟨by decide, getItemsToDownload_reverse_symmetry witnessFeed "u" "/o" "t" false (by decide)⟩

/-- C9: when `offset ≥ items.length` the selection loop visits no index in
either direction (no out-of-bounds read is possible: every visited index of
any loop lies in `[0, length)`), the selection is empty, and `main`'s check
reports the fatal `--offset too large` condition, whose exit status is
non-zero. -/
theorem offset_too_large_spec (crit : Criteria) (feed : Feed)
    (h : feed.items.length ≤ crit.offset) :
    visitedIndices crit.offset feed.items.length false = []
    ∧ visitedIndices crit.offset feed.items.length true = []
    ∧ (∀ (o L : Nat) (rev : Bool) (i : Int), i ∈ visitedIndices o L rev → 0 ≤ i ∧ i < L)
    ∧ getItemsToDownload crit feed = []
    ∧ checkOffset crit.offset feed.items.length = Except.error FatalError.offsetTooLarge
    ∧ 0 < fatalExitCode FatalError.offsetTooLarge := by
  have h1 : visitedIndices crit.offset feed.items.length false = [] := by
    rw [visitedIndices_false, List.drop_eq_nil_of_le (by simpa using h)]
    rfl
  have h2 : visitedIndices crit.offset feed.items.length true = [] := by
    rw [visitedIndices_true, show feed.items.length - crit.offset = 0 by omega]
    rfl
  have hv : visitedIndices crit.offset feed.items.length crit.reverse = [] := by
    cases crit.reverse
    · exact h1
    · exact h2
  refine ⟨h1, h2, fun o L rev i hi => visitedIndices_bounds o L rev i hi, ?_, ?_, by decide⟩
  · have e : getItemsToDownload crit feed
        = (match crit.limit with
           | some n =>
             if n = 0 then
               selectLoop crit feed (crit.archive.getD [])
                 (visitedIndices crit.offset feed.items.length crit.reverse)
             else
               (selectLoop crit feed (crit.archive.getD [])
                 (visitedIndices crit.offset feed.items.length crit.reverse)).take n
           | none =>
             selectLoop crit feed (crit.archive.getD [])
               (visitedIndices crit.offset feed.items.length crit.reverse)) := rfl
    rw [e, hv]
    rcases crit.limit with _ | n
    · rfl
    · show (if n = 0 then _ else _) = _
      have hsl : selectLoop crit feed (crit.archive.getD []) ([] : List Int) = [] := rfl
      rw [hsl]
      split
      · rfl
      · exact List.take_nil
  · rw [checkOffset, if_pos h]

/-- C9 witness: the scenario feed of ten entries with offset 12. -/
theorem offset_too_large_spec_witness :
    scenarioFeed.items.length ≤ ({ scenarioCrit with offset := 12 } : Criteria).offset
    ∧ (visitedIndices ({ scenarioCrit with offset := 12 } : Criteria).offset
          scenarioFeed.items.length false = []
      ∧ visitedIndices ({ scenarioCrit with offset := 12 } : Criteria).offset
          scenarioFeed.items.length true = []
      ∧ (∀ (o L : Nat) (rev : Bool) (i : Int), i ∈ visitedIndices o L rev → 0 ≤ i ∧ i < L)
      ∧ getItemsToDownload { scenarioCrit with offset := 12 } scenarioFeed = []
      ∧ checkOffset ({ scenarioCrit with offset := 12 } : Criteria).offset
          scenarioFeed.items.length = Except.error FatalError.offsetTooLarge
      ∧ 0 < fatalExitCode FatalError.offsetTooLarge) :=
  ⟨by decide, offset_too_large_spec { scenarioCrit with offset := 12 } scenarioFeed (by decide)⟩

/-- C8: date bounds are inclusive at calendar-day granularity — the `before`
step excludes an entry iff its publish day is strictly after the bound's
day, the `after` step excludes iff strictly before; concretely, with
`before = 2020-01-10` (epoch day 18271) an entry published at
2020-01-10T23:00:00Z passes and one published at 2020-01-11T00:01:00Z is
excluded. -/
theorem passes_date_bounds_day_inclusive :
    (∀ b d : Int, passesBefore (some b) (some d) = false ↔ dayOf b < dayOf d)
    ∧ (∀ a d : Int, passesAfter (some a) (some d) = false ↔ dayOf d < dayOf a)
    ∧ passesBefore (some (18271 * 1440)) (some (18271 * 1440 + 23 * 60)) = true
    ∧ passesBefore (some (18271 * 1440)) (some (18272 * 1440 + 1)) = false := by
  refine ⟨?_, ?_, by decide, by decide⟩
  · intro b d
    simp only [passesBefore]
    constructor
    · intro hb
      rcases Bool.or_eq_false_iff.1 hb with ⟨hb1, hb2⟩
      simp only [decide_eq_false_iff_not] at hb1 hb2
      omega
    · intro hlt
      apply Bool.or_eq_false_iff.2
      refine ⟨?_, ?_⟩ <;> simp only [decide_eq_false_iff_not] <;> omega
  · intro a d
    simp only [passesAfter]
    constructor
    · intro hb
      rcases Bool.or_eq_false_iff.1 hb with ⟨hb1, hb2⟩
      simp only [decide_eq_false_iff_not] at hb1 hb2
      omega
    · intro hlt
      apply Bool.or_eq_false_iff.2
      refine ⟨?_, ?_⟩ <;> simp only [decide_eq_false_iff_not] <;> omega

/-- C10: when an episode regex is set, an entry whose title is missing or
empty is never excluded by the regex step — the entry's validity equals its
validity with no regex set at all, so it remains eligible under the
remaining predicates. -/
theorem missing_title_passes_regex_filter (crit : Criteria) (test : String → Bool)
    (sa : List String) (item : Item)
    (hr : crit.episodeRegex = some test)
    (ht : item.title = none ∨ item.title = some "") :
    passesRegex crit.episodeRegex item.title = true
    ∧ itemIsValid crit sa item = itemIsValid { crit with episodeRegex := none } sa item := by
  have hp : passesRegex crit.episodeRegex item.title = true := by
    rcases ht with ht | ht <;> rw [hr, ht, passesRegex] <;> simp
  refine ⟨hp, ?_⟩
  rw [itemIsValid, itemIsValid, hp]
  have hp2 : passesRegex ({ crit with episodeRegex := none } : Criteria).episodeRegex item.title
      = true := rfl
  rw [hp2]
  rfl

/-- C10 witness: a never-matching regex and a title-less entry. -/
theorem missing_title_passes_regex_filter_witness :
    ({ scenarioCrit with episodeRegex := some (fun _ => false) } : Criteria).episodeRegex
        = some (fun _ => false)
    ∧ (itemNoTitle.title = none ∨ itemNoTitle.title = some "")
    ∧ (passesRegex ({ scenarioCrit with episodeRegex := some (fun _ => false) } :
          Criteria).episodeRegex itemNoTitle.title = true
      ∧ itemIsValid { scenarioCrit with episodeRegex := some (fun _ => false) } [] itemNoTitle
          = itemIsValid { ({ scenarioCrit with episodeRegex := some (fun _ => false) } : Criteria)
              with episodeRegex := none } [] itemNoTitle) :=
  ⟨rfl, Or.inl rfl,
    missing_title_passes_regex_filter { scenarioCrit with episodeRegex := some (fun _ => false) }
      (fun _ => false) [] itemNoTitle rfl (Or.inl rfl)⟩

/-- C6: archive insertion is idempotent on ledger contents — `writeToArchive`
loads the current ledger, appends the key only if absent and rewrites the
whole file; inserting a present key leaves the contents unchanged; and
after a successful `writeToArchive` the ledger contains the key
(`getIsInArchive` answers true). -/
theorem writeToArchive_idempotent_insert (file : Option ArchiveFile) (key : String)
    (entries : List String) (h : getArchive file = Except.ok entries) :
    writeToArchive key file
      = Except.ok (some (ArchiveFile.jsonList
          (if entries.contains key then entries else entries ++ [key])))
    ∧ (entries.contains key = true →
        writeToArchive key file = Except.ok (some (ArchiveFile.jsonList entries)))
    ∧ ∀ file', writeToArchive key file = Except.ok file' →
        getIsInArchive key file' = Except.ok true := by
  have e : writeToArchive key file
      = Except.ok (some (ArchiveFile.jsonList
          (if entries.contains key then entries else entries ++ [key]))) := by
    unfold writeToArchive
    rw [h]
    rfl
  refine ⟨e, fun hc => by rw [e, if_pos hc], fun file' hf => ?_⟩
  rw [e] at hf
  injection hf with hf
  subst hf
  by_cases hc : entries.contains key
  · rw [if_pos hc]
    show Except.ok (entries.contains key) = Except.ok true
    rw [hc]
  · rw [if_neg hc]
    show Except.ok ((entries ++ [key]).contains key) = Except.ok true
    have : (entries ++ [key]).contains key = true := by
      simp
    rw [this]

/-- C6 witness: inserting the key `"k"` into a missing (hence empty)
ledger. -/
theorem writeToArchive_idempotent_insert_witness :
    getArchive none = Except.ok []
    ∧ (writeToArchive "k" none
        = Except.ok (some (ArchiveFile.jsonList
            (if List.contains [] "k" then [] else [] ++ ["k"])))
      ∧ (List.contains [] "k" = true →
          writeToArchive "k" none = Except.ok (some (ArchiveFile.jsonList [])))
      ∧ ∀ file', writeToArchive "k" none = Except.ok file' →
          getIsInArchive "k" file' = Except.ok true) :=
  ⟨rfl, writeToArchive_idempotent_insert none "k" [] rfl⟩

/-- C7: loading the archive ledger yields the empty ledger when the file
does not exist (absence is not an error), and an existing but malformed
file raises the fatal parse error — it is never read back as any ledger
contents, in particular not as the empty one. -/
theorem getArchive_missing_and_malformed :
    getArchive none = Except.ok []
    ∧ getArchive (some ArchiveFile.malformed) = Except.error ArchiveError.parseError
    ∧ ∀ entries : List String, getArchive (some ArchiveFile.malformed) ≠ Except.ok entries :=
  ⟨rfl, rfl, fun _ h => by cases h⟩

/-! ## Lemmas: compiled glob patterns and rule evaluation -/

theorem rmatch_nil : ∀ cs : List Char, rmatch [] cs = cs.isEmpty := by
  intro cs
  cases cs <;> simp [rmatch]

theorem rmatch_nonDotPlus : ∀ cs : List Char,
    rmatch [RAtom.nonDotPlus] cs = (!cs.isEmpty && cs.all (fun c => !(c = '.'))) := by
  intro cs
  induction cs with
  | nil => simp [rmatch]
  | cons x xs ih =>
    cases xs with
    | nil => simp [rmatch]
    | cons y ys =>
      simp only [rmatch, List.all_cons] at ih ⊢
      rw [ih]
      simp [Bool.and_assoc]

theorem getToInclude_prim (rules : List CompiledRule) (k : List Char) (v : String) :
    getToInclude rules k (JVal.prim v)
      = (match rules.find? (fun r => rmatch r.pattern k) with
         | some r => if r.includeFlag then some (JVal.prim v) else none
         | none => none) := by
  rw [getToInclude]

theorem applyFieldRules_flat (inc : Bool) :
    ∀ fields : List (String × JVal),
    (∀ p ∈ fields, p.1 = "$" ∨ p.1 = "_" ∨
        ((∃ s, p.2 = JVal.prim s) ∧ p.1.data ≠ [] ∧ '.' ∉ p.1.data)) →
    applyFieldRules [⟨inc, [RAtom.nonDotPlus]⟩] [] fields
      = if inc then fields else fields.filter (fun p => p.1 = "$" ∨ p.1 = "_") := by
  intro fields
  induction fields with
  | nil => intro _; cases inc <;> simp [applyFieldRules]
  | cons p rest ih =>
    intro hflat
    obtain ⟨k, v⟩ := p
    have hrest := fun q hq => hflat q (List.mem_cons_of_mem _ hq)
    have hp := hflat ⟨k, v⟩ (List.mem_cons_self _ _)
    by_cases hres : k = "$" ∨ k = "_"
    · rw [applyFieldRules, if_pos hres, ih hrest]
      cases inc
      · simp only [if_neg, Bool.false_eq_true, if_false, List.filter_cons]
        rw [if_pos (by simpa using hres)]
      · simp
    · rcases hp with hp | hp | hp
      · exact absurd (Or.inl hp) hres
      · exact absurd (Or.inr hp) hres
      · obtain ⟨⟨s, hs⟩, hne, hdot⟩ := hp
        simp only at hs
        subst hs
        have hmatch : rmatch [RAtom.nonDotPlus] ([] ++ k.data) = true := by
          rw [List.nil_append, rmatch_nonDotPlus]
          simp only [Bool.and_eq_true, Bool.not_eq_true', List.all_eq_true]
          constructor
          · cases hk : k.data
            · exact absurd hk hne
            · rfl
          · intro c hc
            simp only [decide_eq_false_iff_not]
            intro rfl2
            subst rfl2
            exact hdot hc
        rw [applyFieldRules, if_neg hres, getToInclude_prim]
        have hfind : List.find? (fun r => rmatch r.pattern ([] ++ k.data))
            [(⟨inc, [RAtom.nonDotPlus]⟩ : CompiledRule)]
            = some ⟨inc, [RAtom.nonDotPlus]⟩ := by
          rw [List.find?_cons]
          simp only [hmatch]
        rw [hfind]
        cases inc
        · simp only [if_neg, Bool.false_eq_true, if_false]
          rw [ih hrest, List.filter_cons]
          simp only [if_neg, Bool.false_eq_true, if_false]
          rw [if_neg (by simpa using hres)]
        · simp only [if_pos]
          rw [ih hrest]
          simp

theorem find?_reverse_last {α : Type} (l : List α) (p : α → Bool) :
    ∀ (j : Nat) (hj : j < l.length), p (l.get ⟨j, hj⟩) = true →
    ∃ (m : Nat) (hm : m < l.length), j ≤ m ∧ p (l.get ⟨m, hm⟩) = true
      ∧ l.reverse.find? p = some (l.get ⟨m, hm⟩) := by
  induction l using List.reverseRecOn with
  | nil => intro j hj; simp at hj
  | append_singleton l a ih =>
    intro j hj hpj
    cases hpa : p a
    · have hja : j ≠ l.length := by
        intro hje
        have hax : (l ++ [a]).get ⟨j, hj⟩ = a := by
          simp only [List.get_eq_getElem]
          exact List.getElem_concat_length l a j hje _
        rw [hax, hpa] at hpj
        cases hpj
      have hj' : j < l.length := by
        have := hj
        simp only [List.length_append, List.length_singleton] at this
        omega
      have hget : (l ++ [a]).get ⟨j, hj⟩ = l.get ⟨j, hj'⟩ := by
        simp only [List.get_eq_getElem]
        exact List.getElem_append_left hj'
      obtain ⟨m, hm, hjm, hpm, hfind⟩ := ih j hj' (by rw [← hget]; exact hpj)
      have hm2 : m < (l ++ [a]).length := by
        simp only [List.length_append, List.length_singleton]
        omega
      have hgetm : (l ++ [a]).get ⟨m, hm2⟩ = l.get ⟨m, hm⟩ := by
        simp only [List.get_eq_getElem]
        exact List.getElem_append_left hm
      refine ⟨m, hm2, hjm, by rw [hgetm]; exact hpm, ?_⟩
      rw [List.reverse_append, List.reverse_singleton, List.singleton_append, List.find?_cons,
        hpa, hfind, hgetm]
    · have hm2 : l.length < (l ++ [a]).length := by
        simp only [List.length_append, List.length_singleton]
        omega
      have hgetm : (l ++ [a]).get ⟨l.length, hm2⟩ = a := by
        simp only [List.get_eq_getElem]
        exact List.getElem_concat_length l a l.length rfl _
      have hjle : j ≤ l.length := by
        have := hj
        simp only [List.length_append, List.length_singleton] at this
        omega
      refine ⟨l.length, hm2, hjle, by rw [hgetm]; exact hpa, ?_⟩
      rw [List.reverse_append, List.reverse_singleton, List.singleton_append, List.find?_cons,
        hpa, hgetm]

/-- C2 counterexample: projecting the nested object with fields
`a ↦ (obj with field b ↦ 1)` under the include-all rule list `["*"]` yields
the empty object, not a structurally equal copy (the leaf's dotted path
`a.b` contains a dot, which the compiled `[^.]+` pattern cannot match); and
under `["!*"]` a nested reserved key keeps its whole enclosing field, so the
result is not empty-except-reserved-keys. -/
theorem getFields_projection_counterexample :
    getFields [("a", JVal.obj [("b", JVal.prim "1")])] ["*"] = some []
    ∧ [("a", JVal.obj [("b", JVal.prim "1")])] ≠ ([] : List (String × JVal))
    ∧ getFields [("a", JVal.obj [("$", JVal.prim "x")])] ["!*"]
        = some [("a", JVal.obj [("$", JVal.prim "x")])] := by
  refine ⟨?_, by simp, ?_⟩
  · have h1 : processFieldRules ["*"] = some [⟨true, [RAtom.nonDotPlus]⟩] := rfl
    rw [getFields, h1, Option.map]
    simp [applyFieldRules, getToInclude, rmatch, List.find?]
  · have h2 : processFieldRules ["!*"] = some [⟨false, [RAtom.nonDotPlus]⟩] := rfl
    rw [getFields, h2, Option.map]
    simp [applyFieldRules, getToInclude, rmatch, List.find?]

/-- C2 (amended): for a flat object — every non-reserved field a scalar
whose key is nonempty and dot-free — projecting with `["*"]` returns a
structurally equal copy (reserved keys `$` and `_` pass regardless), and
projecting with `["!*"]` keeps exactly the reserved keys. -/
theorem getFields_flat_projection (fields : List (String × JVal))
    (hflat : ∀ p ∈ fields, p.1 = "$" ∨ p.1 = "_" ∨
        ((∃ s, p.2 = JVal.prim s) ∧ p.1.data ≠ [] ∧ '.' ∉ p.1.data)) :
    getFields fields ["*"] = some fields
    ∧ getFields fields ["!*"]
        = some (fields.filter (fun p => p.1 = "$" ∨ p.1 = "_")) := by
  have h1 : processFieldRules ["*"] = some [⟨true, [RAtom.nonDotPlus]⟩] := rfl
  have h2 : processFieldRules ["!*"] = some [⟨false, [RAtom.nonDotPlus]⟩] := rfl
  constructor
  · rw [getFields, h1, Option.map]
    rw [show ([(⟨true, [RAtom.nonDotPlus]⟩ : CompiledRule)]).reverse
        = [⟨true, [RAtom.nonDotPlus]⟩] from rfl]
    rw [applyFieldRules_flat true fields hflat]
    simp
  · rw [getFields, h2, Option.map]
    rw [show ([(⟨false, [RAtom.nonDotPlus]⟩ : CompiledRule)]).reverse
        = [⟨false, [RAtom.nonDotPlus]⟩] from rfl]
    rw [applyFieldRules_flat false fields hflat]
    simp

/-- C2 witness: the flat projection laws at a concrete two-field object. -/
theorem getFields_flat_projection_witness :
    getFields [("$", JVal.prim "attrs"), ("title", JVal.prim "x")] ["*"]
        = some [("$", JVal.prim "attrs"), ("title", JVal.prim "x")]
    ∧ getFields [("$", JVal.prim "attrs"), ("title", JVal.prim "x")] ["!*"]
        = some (([("$", JVal.prim "attrs"), ("title", JVal.prim "x")]).filter
            (fun p => p.1 = "$" ∨ p.1 = "_")) :=
  getFields_flat_projection [("$", JVal.prim "attrs"), ("title", JVal.prim "x")] (by
    intro p hp
    simp only [List.mem_cons, List.not_mem_nil, or_false] at hp
    rcases hp with rfl | rfl
    · exact Or.inl rfl
    · exact Or.inr (Or.inr ⟨⟨"x", rfl⟩, by decide, by decide⟩))

/-- C3: rule compilation treats a leading `!` as an exclude rule and a
leading `\!` as an include rule with a literal leading bang; and evaluation
is last-declared-wins — the first rule of the reversed compiled list whose
pattern matches the full dotted key path decides inclusion, so whenever two
rules both match, the matching rule that decides sits at or after the later
one in declaration order. -/
theorem processFieldRules_last_match_precedence :
    (∀ p : String, compileRuleStr ('!' :: p.data) = (false, p.data)
      ∧ compileRuleStr ('\\' :: '!' :: p.data) = (true, '!' :: p.data))
    ∧ (∀ (patterns : List String) (rules : List CompiledRule) (k : List Char) (i j : Nat)
        (hi : i < rules.length) (hj : j < rules.length),
        processFieldRules patterns = some rules → i < j →
        rmatch (rules.get ⟨i, hi⟩).pattern k = true →
        rmatch (rules.get ⟨j, hj⟩).pattern k = true →
        ∃ (m : Nat) (hm : m < rules.length), j ≤ m
          ∧ rmatch (rules.get ⟨m, hm⟩).pattern k = true
          ∧ rules.reverse.find? (fun r => rmatch r.pattern k) = some (rules.get ⟨m, hm⟩)
          ∧ ∀ v, getToInclude rules.reverse k (JVal.prim v)
              = (if (rules.get ⟨m, hm⟩).includeFlag then some (JVal.prim v) else none)) := by
  constructor
  · intro p
    exact ⟨rfl, rfl⟩
  · intro patterns rules k i j hi hj _ hij hpi hpj
    obtain ⟨m, hm, hjm, hpm, hfind⟩ :=
      find?_reverse_last rules (fun r => rmatch r.pattern k) j hj hpj
    refine ⟨m, hm, hjm, hpm, hfind, fun v => ?_⟩
    rw [getToInclude_prim, hfind]

/-- Fidelity of the compilation error path: when a whole `**` survives both
first-occurrence replacements (a lone `*` standing before a later `**`), the
generated pattern ends in a quantifier with nothing to repeat and the
`RegExp` constructor throws, so compilation yields `none`. -/
theorem globToRegExp_surviving_stars_fail :
    globToRegExp ('*' :: '*' :: '*' :: '*' :: '*' :: []) = none
    ∧ globToRegExp ('*' :: 'a' :: '*' :: '*' :: 'b' :: '*' :: '*' :: []) = none
    ∧ processFieldRules ["*a**b**"] = none := by
  refine ⟨rfl, rfl, rfl⟩
